import Mathlib

/-!
# CustomShell: topology classifier and process orchestration of `Shell.c`

A shallow embedding of `src/Shell.c`.

* A NULL-terminated `char **` token array is a `List String` (the tokens before
  the terminator); reading the cell at the terminator gives `none`.  Buffers are
  represented by the tokens stored in them, and a cell of a fresh block that the
  source never wrote reads as NULL.  The capacity of the array `allCommands`
  (`MAX_TOKENS` rows of `MAX_COMMAND_LENGTH` cells) is represented: a store
  outside it is a fault.  The other buffers have room for every line that the
  `MAX_TOKENS` cells of the token array can hold, and their capacity is not
  represented.
* A process is observed through the ordered list of system calls it makes
  (`Event`) and the way the observed function ends (`Outcome`).  The results of
  the system calls are supplied by an oracle `Sys`; `fork` makes the observer
  follow either the parent (`ForkResult.parent`) or the child
  (`ForkResult.child`).
-/

namespace CustomShell

/-! ## Processes, events and system-call results -/

/-- The three results of `fork()` as seen by the process that continues to be observed. -/
inductive ForkResult where
  | failed
  | child
  | parent
  deriving DecidableEq, Repr

/-- The two signals whose disposition the shell touches. -/
inductive Signal where
  | sigint
  | sigtstp
  deriving DecidableEq, Repr

/-- The two standard streams a pipe end is duplicated onto. -/
inductive Std where
  | stdin
  | stdout
  deriving DecidableEq, Repr

/-- One observable step of a process, with the arguments written as in the source. -/
inductive Event where
  /-- A `fork()` that returned a positive pid: the observed process is the parent. -/
  | forkParent
  /-- A `fork()` that returned 0: from here on the observed process is the child. -/
  | forkChild
  /-- A `fork()` that returned a negative value. -/
  | forkFailed
  /-- Call `printf(msg)`. -/
  | print (msg : String)
  /-- Call `perror(msg)`. -/
  | perror (msg : String)
  /-- Call `signal(sig, SIG_DFL)`. -/
  | signalDefault (sig : Signal)
  /-- Call `chdir(path)`; `none` is a NULL path. -/
  | chdir (path : Option String)
  /-- Call `execvp(file, argv)`; `none` is a NULL file name, `argv` the strings before the
  terminator. -/
  | execvp (file : Option String) (argv : List String)
  /-- Call `wait(NULL)`. -/
  | wait
  /-- Call `waitpid(-1, &status, WUNTRACED)`. -/
  | waitpid
  /-- Call `close(STDOUT_FILENO)`. -/
  | closeStdout
  /-- Call `open(path, O_CREAT | O_WRONLY | O_APPEND)`. -/
  | openAppend (path : String)
  /-- Call `pipe(pipefds + j * 2)`. -/
  | pipe (j : Nat)
  /-- Call `close(pipefds[idx])`. -/
  | closePipefd (idx : Int)
  /-- Call `dup2(pipefds[idx], std)`. -/
  | dup2Pipefd (idx : Int) (std : Std)
  /-- The call `executeCommand(command)` made by the sequential loop. -/
  | executeCommand (command : List String)
  deriving DecidableEq, Repr

/-- How the observed function ends in the observed process. -/
inductive Outcome where
  /-- The function returns to its caller. -/
  | returned
  /-- The process terminates through `exit(status)` (or `return status` from `main`). -/
  | exited (status : Nat)
  /-- The process image was replaced by a successful `execvp`. -/
  | execed
  /-- Undefined behaviour: a NULL pointer is passed where a string is read (`strlen`,
  `strcmp`, `execvp`), or a cell outside an array is written. -/
  | fault
  deriving DecidableEq, Repr

/-- The observation of one call: its events, the number of `fork()` calls it made, its end. -/
structure Run where
  trace : List Event
  forks : Nat
  outcome : Outcome
  deriving DecidableEq, Repr

/-- The results of the system calls, chosen by the environment. -/
structure Sys where
  /-- Result of the `n`-th `fork()` call (counted from 0) of the observed process. -/
  fork : Nat → ForkResult
  /-- Whether `execvp` with this argument vector succeeds. -/
  execvp : List String → Bool
  /-- Whether `chdir` to this path succeeds. -/
  chdir : Option String → Bool
  /-- Whether the `j`-th `pipe()` call succeeds. -/
  pipe : Nat → Bool

/-- The constant `MAX_TOKENS` of the source. -/
def MAX_TOKENS : Nat := 15

/-- The constant `MAX_COMMAND_LENGTH` of the source. -/
def MAX_COMMAND_LENGTH : Nat := 150

/-- The message printed on every operational failure. -/
def incorrectCommand : String := "Shell: Incorrect command\n"

/-! ## Topology classifier -/

/-- Source `containsToken`: 1 when `token` equals one of the strings of `commandArgs`, else 0. -/
def containsToken : List String → String → Nat
  | [], _ => 0
  | arg :: rest, token => if arg = token then 1 else containsToken rest token

/-- Source `parseInput`: the topology tag of a token array; `none` when `parsedArgs[0]` is NULL
(`strcmp` on a NULL pointer). -/
def parseInput (parsedArgs : List String) : Option Nat :=
  match parsedArgs.head? with
  | none => none
  | some first =>
    if first = "exit" then some 0
    else
      let isParallel := containsToken parsedArgs "&&"
      if isParallel ≠ 0 then some 1
      else
        let isSequential := containsToken parsedArgs "##"
        if isSequential ≠ 0 then some 2
        else
          let isRedirection := containsToken parsedArgs ">"
          if isRedirection ≠ 0 then some 3
          else
            let isPipe := containsToken parsedArgs "|"
            if isPipe ≠ 0 then some 4
            else some 5

/-! ## Process launcher -/

/-- Source `changeWorkingDirectory`: `chdir(args[1])`, with the error message when it fails. -/
def changeWorkingDirectory (sys : Sys) (args : List String) : Run :=
  let path := args.get? 1
  if sys.chdir path then ⟨[.chdir path], 0, .returned⟩
  else ⟨[.chdir path, .print incorrectCommand], 0, .returned⟩

/-- Source `executeCommand`, with `n` the number of `fork()` calls the process made before. -/
def executeCommand (sys : Sys) (n : Nat) (commandArgs : List String) : Run :=
  match commandArgs.head? with
  | none => ⟨[], 0, .fault⟩
  | some first =>
    if first.length = 0 then ⟨[], 0, .returned⟩
    else if first = "cd" then changeWorkingDirectory sys commandArgs
    else if first = "exit" then ⟨[], 0, .exited 0⟩
    else
      match sys.fork n with
      | .failed => ⟨[.forkFailed, .print incorrectCommand], 1, .returned⟩
      | .child =>
        if sys.execvp commandArgs then
          ⟨[.forkChild, .signalDefault .sigint, .signalDefault .sigtstp,
            .execvp (some first) commandArgs], 1, .execed⟩
        else
          ⟨[.forkChild, .signalDefault .sigint, .signalDefault .sigtstp,
            .execvp (some first) commandArgs, .print incorrectCommand], 1, .exited 0⟩
      | .parent => ⟨[.forkParent, .wait], 1, .returned⟩

/-! ## Sequential orchestrator -/

/-- Source `executeSequentialCommands`, started with `tempTokens` at the given position.
The inner loop copies the tokens before the next `"##"` (or the end) into `command`;
`command` is handed to `executeCommand`; one separator, when present, is stepped over. -/
def executeSequentialCommands (sys : Sys) (n : Nat) (tempTokens : List String) : Run :=
  match tempTokens with
  | [] => ⟨[], 0, .returned⟩
  | tok :: rest =>
    let command := (tok :: rest).takeWhile (fun s => s ≠ "##")
    let afterCommand := (tok :: rest).dropWhile (fun s => s ≠ "##")
    let r := executeCommand sys n command
    match r.outcome with
    | .returned =>
      let r2 := executeSequentialCommands sys (n + r.forks) (afterCommand.drop 1)
      ⟨.executeCommand command :: (r.trace ++ r2.trace), r.forks + r2.forks, r2.outcome⟩
    | o => ⟨.executeCommand command :: r.trace, r.forks, o⟩
termination_by tempTokens.length
decreasing_by
  simp only [List.length_drop, List.length_cons]
  have h := (List.dropWhile_sublist (l := tok :: rest) (fun s => decide (s ≠ "##"))).length_le
  simp only [List.length_cons] at h
  omega

/-! ## Parallel orchestrator -/

/-- The splitting loop of `executeParallelCommands` (lines 129-146) on the array
`allCommands[MAX_TOKENS][MAX_COMMAND_LENGTH]`: `done` are the rows
`allCommands[0 .. commandIndex - 1]` already terminated, `cur` the tokens stored so far in
row `commandIndex`, so that `commandIndex` is `done.length` and `tokenIndex` is
`cur.length`.  Every pass of the loop stores into `allCommands[commandIndex][tokenIndex]`
(a token, or the NULL that ends the row); after the loop the source stores into
`allCommands[commandIndex][tokenIndex]` and into `allCommands[commandIndex + 1][0]`.
The result is the rows `0 .. commandIndex` and `commandCount`, or `none` when one of
these stores falls outside the array. -/
def parallelSplit : List String → List (List String) → List String → Nat →
    Option (List (List String) × Nat)
  | [], done, cur, commandCount =>
    if done.length < MAX_TOKENS ∧ cur.length < MAX_COMMAND_LENGTH ∧
        done.length + 1 < MAX_TOKENS then
      some (done ++ [cur], commandCount)
    else none
  | tok :: rest, done, cur, commandCount =>
    if done.length < MAX_TOKENS ∧ cur.length < MAX_COMMAND_LENGTH then
      if tok ≠ "&&" then parallelSplit rest done (cur ++ [tok]) commandCount
      else parallelSplit rest (done ++ [cur]) [] (commandCount + 1)
    else none

/-- The fork loop and the wait loop of `executeParallelCommands` (lines 150-169), with
`remaining = commandCount - i` iterations of the fork loop left. -/
def parallelLoop (sys : Sys) (n : Nat) (allCommands : List (List String)) (commandCount : Nat) :
    Nat → Nat → Run
  | 0, _ => ⟨List.replicate commandCount .waitpid, 0, .returned⟩
  | remaining + 1, i =>
    match sys.fork (n + i) with
    | .failed => ⟨[.forkFailed, .print incorrectCommand], 1, .exited 1⟩
    | .child =>
      match allCommands.get? i with
      | none => ⟨[.forkChild, .signalDefault .sigint, .signalDefault .sigtstp], 1, .fault⟩
      | some argv =>
        match argv.head? with
        | none =>
          ⟨[.forkChild, .signalDefault .sigint, .signalDefault .sigtstp,
            .execvp none argv], 1, .fault⟩
        | some file =>
          if sys.execvp argv then
            ⟨[.forkChild, .signalDefault .sigint, .signalDefault .sigtstp,
              .execvp (some file) argv], 1, .execed⟩
          else
            ⟨[.forkChild, .signalDefault .sigint, .signalDefault .sigtstp,
              .execvp (some file) argv] ++ List.replicate commandCount .waitpid, 1, .returned⟩
    | .parent =>
      let r := parallelLoop sys n allCommands commandCount remaining (i + 1)
      ⟨.forkParent :: r.trace, r.forks + 1, r.outcome⟩

/-- Source `executeParallelCommands`: the splitting loop, then the fork loop and the wait
loop; a store outside `allCommands` happens before the first fork. -/
def executeParallelCommands (sys : Sys) (n : Nat) (commandTokens : List String) : Run :=
  match parallelSplit commandTokens [] [] 1 with
  | none => ⟨[], 0, .fault⟩
  | some split => parallelLoop sys n split.1 split.2 split.2 0

/-! ## Redirected orchestrator -/

/-- Source `executeCommandRedirection`.  After `args[1] = NULL` the vector read through
`args` is the first token alone; `commandArgs[2]` is still the third cell of the array. -/
def executeCommandRedirection (sys : Sys) (n : Nat) (commandArgs : List String) : Run :=
  let args := commandArgs.take 1
  match commandArgs.get? 2 with
  | none => ⟨[], 0, .fault⟩
  | some file =>
    if file.length = 0 then ⟨[.print incorrectCommand], 0, .returned⟩
    else
      match sys.fork n with
      | .failed => ⟨[.forkFailed, .print incorrectCommand], 1, .returned⟩
      | .child =>
        match args.head? with
        | none =>
          ⟨[.forkChild, .signalDefault .sigint, .signalDefault .sigtstp, .closeStdout,
            .openAppend file, .execvp none args], 1, .fault⟩
        | some prog =>
          if sys.execvp args then
            ⟨[.forkChild, .signalDefault .sigint, .signalDefault .sigtstp, .closeStdout,
              .openAppend file, .execvp (some prog) args], 1, .execed⟩
          else
            ⟨[.forkChild, .signalDefault .sigint, .signalDefault .sigtstp, .closeStdout,
              .openAppend file, .execvp (some prog) args], 1, .returned⟩
      | .parent => ⟨[.forkParent, .wait], 1, .returned⟩

/-! ## Piped orchestrator -/

/-- The counting loop of `executePipes` (lines 236-241). -/
def countPipes : List String → Nat
  | [] => 0
  | arg :: rest => if arg = "|" then countPipes rest + 1 else countPipes rest

/-- The pipe-creating loop of `executePipes` (lines 246-251), `remaining = numPipes - j`:
the events, and whether every `pipe()` call succeeded. -/
def createPipes (sys : Sys) : Nat → Nat → List Event × Bool
  | 0, _ => ([], true)
  | remaining + 1, j =>
    if sys.pipe j then
      let r := createPipes sys remaining (j + 1)
      (.pipe j :: r.1, r.2)
    else ([.pipe j, .perror "pipe"], false)

/-- The loop "Close all pipes" of `executePipes` (lines 305-308), `remaining = numPipes - j`. -/
def closeAllPipes : Nat → Nat → List Event
  | 0, _ => []
  | remaining + 1, j =>
    .closePipefd ((j : Int) * 2) :: .closePipefd ((j : Int) * 2 + 1) ::
      closeAllPipes remaining (j + 1)

/-- The argument vector `command` of a pipe stage: `args + commandStart`, cut by
`command[commandEnd - commandStart + 1] = NULL`. -/
def stageCommand (args : List String) (commandStart : Nat) (commandEnd : Int) : List String :=
  let command := args.drop commandStart
  let cut : Int := commandEnd - (commandStart : Int) + 1
  if cut < 0 then command else command.take cut.toNat

/-- What the child of a pipe stage does (lines 262-287) with its argument vector `command`;
`lastToken` is `args[i + 1] == NULL`. -/
def pipeChild (sys : Sys) (command : List String) (commandStart pipeIndex : Nat)
    (lastToken : Bool) : Run :=
  let setup : List Event :=
    [.forkChild]
    ++ (if pipeIndex > 0 then [.closePipefd (((pipeIndex : Int) - 1) * 2 + 1)] else [])
    ++ (if commandStart > 0 then [.dup2Pipefd (((pipeIndex : Int) - 1) * 2) .stdin] else [])
    ++ [.closePipefd ((pipeIndex : Int) * 2)]
    ++ (if lastToken then [] else [.dup2Pipefd ((pipeIndex : Int) * 2 + 1) .stdout])
    ++ [.execvp command.head? command]
  match command.head? with
  | none => ⟨setup, 1, .fault⟩
  | some _ =>
    if sys.execvp command then ⟨setup, 1, .execed⟩
    else ⟨setup ++ [.perror "execvp"], 1, .exited 1⟩

/-- The stage loop of `executePipes` (lines 257-302) followed by the closing and waiting
loops (lines 305-313); `rest` are the cells `args[i ..]`.  The parent increments `pipeIndex`
at every fork, so `pipeIndex` is also the number of forks made in this call so far. -/
def pipeLoop (sys : Sys) (n : Nat) (args : List String) (numPipes : Nat) :
    List String → Nat → Nat → Nat → Run
  | [], _, _, _ =>
    ⟨closeAllPipes numPipes 0 ++ List.replicate (numPipes + 1) .wait, 0, .returned⟩
  | tok :: rest, i, commandStart, pipeIndex =>
    if tok = "|" ∨ rest.head? = none then
      let commandEnd : Int := if rest.head? = none then (i : Int) else (i : Int) - 1
      match sys.fork (n + pipeIndex) with
      | .child =>
        pipeChild sys (stageCommand args commandStart commandEnd) commandStart pipeIndex
          (rest.head? = none)
      | .parent =>
        let r := pipeLoop sys n args numPipes rest (i + 1) (i + 1) (pipeIndex + 1)
        ⟨.forkParent :: .closePipefd ((pipeIndex : Int) * 2 + 1) :: r.trace, r.forks + 1,
          r.outcome⟩
      | .failed => ⟨[.forkFailed, .perror "fork"], 1, .exited 1⟩
    else pipeLoop sys n args numPipes rest (i + 1) commandStart pipeIndex

/-- Source `executePipes`. -/
def executePipes (sys : Sys) (n : Nat) (args : List String) : Run :=
  let numPipes := countPipes args
  let created := createPipes sys numPipes 0
  if created.2 then
    let r := pipeLoop sys n args numPipes args 0 0 0
    ⟨created.1 ++ r.trace, r.forks, r.outcome⟩
  else ⟨created.1, 0, .exited 1⟩

/-! ## Prompt loop -/

/-- One iteration of the loop of `main` from line 345 on, for the token array `args` of a
line: `returned` is the next iteration of the loop, `exited 0` the `break` on `exit`. -/
def mainStep (sys : Sys) (n : Nat) (args : List String) : Run :=
  match args.head? with
  | none => ⟨[], 0, .fault⟩
  | some first =>
    if first = "##" then ⟨[], 0, .returned⟩
    else
      match parseInput args with
      | none => ⟨[], 0, .fault⟩
      | some cmdType =>
        if cmdType = 0 then ⟨[.print "Exiting shell...\n"], 0, .exited 0⟩
        else if cmdType = 1 then executeParallelCommands sys n args
        else if cmdType = 2 then executeSequentialCommands sys n args
        else if cmdType = 3 then executeCommandRedirection sys n args
        else if cmdType = 4 then executePipes sys n args
        else executeCommand sys n args

/-! ## Specification-side notions -/

/-- The token sequence cut at every occurrence of `sep`, the separators discarded. -/
def cutAt (sep : String) : List String → List (List String)
  | [] => [[]]
  | tok :: rest =>
    if tok = sep then [] :: cutAt sep rest
    else
      match cutAt sep rest with
      | [] => [[tok]]
      | seg :: segs => (tok :: seg) :: segs

/-- Tokens `cur` put in front of the first segment. -/
def extendFirst (cur : List String) : List (List String) → List (List String)
  | [] => [cur]
  | seg :: segs => (cur ++ seg) :: segs

/-- The commands handed to `executeCommand` by the sequential loop, read off a trace. -/
def handedCommands : List Event → List (List String)
  | [] => []
  | .executeCommand command :: rest => command :: handedCommands rest
  | _ :: rest => handedCommands rest

/-- The commands of a sequential line: the line cut at every `"##"`, where the empty piece
after a trailing `"##"` (and the only piece of an empty line) is not a command. -/
def sequentialCommands (t : List String) : List (List String) :=
  if t = [] ∨ t.getLast? = some "##" then (cutAt "##" t).dropLast else cutAt "##" t

/-- The commands run one after the other by `executeCommand`, each call recorded, up to the
first call that does not return. -/
def runCommands (sys : Sys) : Nat → List (List String) → Run
  | _, [] => ⟨[], 0, .returned⟩
  | n, command :: rest =>
    let r := executeCommand sys n command
    match r.outcome with
    | .returned =>
      let r2 := runCommands sys (n + r.forks) rest
      ⟨.executeCommand command :: (r.trace ++ r2.trace), r.forks + r2.forks, r2.outcome⟩
    | o => ⟨.executeCommand command :: r.trace, r.forks, o⟩

/-- Whether every failed `fork()` of a trace is directly followed by the error message. -/
def failuresReported : List Event → Bool
  | [] => true
  | .forkFailed :: .print msg :: rest => decide (msg = incorrectCommand) && failuresReported rest
  | .forkFailed :: _ => false
  | _ :: rest => failuresReported rest

/-- The indices at which a trace reads the array `pipefds`, in order. -/
def pipefdsReads : List Event → List Int
  | [] => []
  | .closePipefd idx :: rest => idx :: pipefdsReads rest
  | .dup2Pipefd idx _ :: rest => idx :: pipefdsReads rest
  | _ :: rest => pipefdsReads rest

/-- The pipe descriptors of a process.  A descriptor is named by its cell of `pipefds`:
cell `2 * j` holds the read end of pipe `j`, cell `2 * j + 1` its write end. -/
structure FdTable where
  /-- The cell whose descriptor was duplicated onto standard input; `none`: inherited. -/
  stdin : Option Nat
  /-- The cell whose descriptor was duplicated onto standard output; `none`: inherited. -/
  stdout : Option Nat
  /-- The cells whose own descriptor is open. -/
  openCells : List Nat
  deriving DecidableEq, Repr

/-- The effect of one event on the pipe descriptors of the process; `none` when the event
uses the value of a cell that no `pipe()` call has filled (`filled` cells are filled).
A `pipe` call is taken to succeed (after a failed one the process exits at once); `fork`
leaves the table as it is (the child inherits it); closing a closed descriptor and
duplicating a closed descriptor fail without effect. -/
def FdTable.step (tbl : FdTable) (filled : Nat) : Event → Option FdTable
  | .pipe j => some { tbl with openCells := tbl.openCells ++ [2 * j, 2 * j + 1] }
  | .closePipefd idx =>
    if 0 ≤ idx ∧ idx.toNat < filled then
      some { tbl with openCells := tbl.openCells.filter (fun c => c ≠ idx.toNat) }
    else none
  | .dup2Pipefd idx std =>
    if 0 ≤ idx ∧ idx.toNat < filled then
      if idx.toNat ∈ tbl.openCells then
        match std with
        | .stdin => some { tbl with stdin := some idx.toNat }
        | .stdout => some { tbl with stdout := some idx.toNat }
      else some tbl
    else none
  | _ => some tbl

/-- The pipe descriptors of the observed process after a trace that starts in `tbl`, with
`filled` cells of `pipefds` filled so far; every `pipe` call fills the next two cells. -/
def fdTableAfter : FdTable → Nat → List Event → Option FdTable
  | tbl, _, [] => some tbl
  | tbl, filled, e :: rest =>
    match tbl.step filled e with
    | none => none
    | some next =>
      match e with
      | .pipe _ => fdTableAfter next (filled + 2) rest
      | _ => fdTableAfter next filled rest

/-- The observer stays in the shell process and every system call succeeds. -/
def shellView : Sys :=
  { fork := fun _ => .parent, execvp := fun _ => true, chdir := fun _ => true,
    pipe := fun _ => true }

/-- The observer follows the child of fork number `i` (the earlier forks succeed and are
seen from the shell); `execOk` says whether `execvp` succeeds. -/
def childView (i : Nat) (execOk : Bool) : Sys :=
  { fork := fun m => if m < i then .parent else .child, execvp := fun _ => execOk,
    chdir := fun _ => true, pipe := fun _ => true }

/-- The observer stays in the shell process and fork number `i` fails. -/
def forkFailsAt (i : Nat) : Sys :=
  { fork := fun m => if m = i then .failed else .parent, execvp := fun _ => true,
    chdir := fun _ => true, pipe := fun _ => true }

/-- What the shell process does for a list of external commands when every fork succeeds:
each command is handed to `executeCommand`, a child is forked for it and waited for. -/
def launchAll : List (List String) → List Event
  | [] => []
  | command :: rest => .executeCommand command :: .forkParent :: .wait :: launchAll rest

/-- The number of tokens at which the stage loop of `executePipes` forks: the `"|"` tokens
and the last token. -/
def stageEnds : List String → Nat
  | [] => 0
  | tok :: rest =>
    if tok = "|" ∨ rest.head? = none then stageEnds rest + 1 else stageEnds rest

/-- The events of the pipe-creating loop when `k` calls succeed, the first for pipe `j`. -/
def pipeEvents : Nat → Nat → List Event
  | 0, _ => []
  | k + 1, j => .pipe j :: pipeEvents k (j + 1)

/-- The events of the shell process for `k` successive stages, the first of them with
pipe index `pipeIndex`: a fork and the close of the "current write end". -/
def stageParentEvents : Nat → Nat → List Event
  | 0, _ => []
  | k + 1, pipeIndex =>
    .forkParent :: .closePipefd ((pipeIndex : Int) * 2 + 1) ::
      stageParentEvents k (pipeIndex + 1)

/-- The argument vectors that the stage loop of `executePipes` builds from the tokens
`rest` still to be read, `cur` being the tokens of the current stage read so far; each
with the flag `args[i + 1] == NULL` of the token at which the stage is spawned. -/
def pipeStages : List String → List String → List (List String × Bool)
  | _, [] => []
  | cur, tok :: rest =>
    if tok = "|" ∨ rest.head? = none then
      (if rest.head? = none then cur ++ [tok] else cur, decide (rest.head? = none)) ::
        pipeStages [] rest
    else pipeStages (cur ++ [tok]) rest

/-- Each element paired with whether it is the last one. -/
def markLast : List (List String) → List (List String × Bool)
  | [] => []
  | [seg] => [(seg, true)]
  | seg :: next :: segs => (seg, false) :: markLast (next :: segs)

/-! ## Supporting lemmas -/

theorem cutAt_ne_nil (sep : String) (t : List String) : cutAt sep t ≠ [] := by
  cases t with
  | nil => simp [cutAt]
  | cons tok rest =>
    simp only [cutAt]
    split
    · simp
    · split <;> simp

theorem cutAt_cons_ne (sep tok : String) (rest : List String) (h : tok ≠ sep) :
    cutAt sep (tok :: rest) = extendFirst [tok] (cutAt sep rest) := by
  simp only [cutAt, h, if_false]
  cases cutAt sep rest <;> simp [extendFirst]

theorem cutAt_cons_eq (sep : String) (rest : List String) :
    cutAt sep (sep :: rest) = [] :: cutAt sep rest := by
  simp [cutAt]

theorem extendFirst_extendFirst (a b : List String) (segs : List (List String))
    (h : segs ≠ []) : extendFirst a (extendFirst b segs) = extendFirst (a ++ b) segs := by
  cases segs with
  | nil => exact absurd rfl h
  | cons s ss => simp [extendFirst]

theorem extendFirst_nil (segs : List (List String)) (h : segs ≠ []) :
    extendFirst [] segs = segs := by
  cases segs with
  | nil => exact absurd rfl h
  | cons s ss => simp [extendFirst]

theorem cutAt_length (sep : String) (t : List String) :
    (cutAt sep t).length = t.count sep + 1 := by
  induction t with
  | nil => simp [cutAt]
  | cons tok rest ih =>
    by_cases h : tok = sep
    · subst h
      simp [cutAt_cons_eq, ih]
    · rw [cutAt_cons_ne sep tok rest h]
      have hne := cutAt_ne_nil sep rest
      cases hc : cutAt sep rest with
      | nil => exact absurd hc hne
      | cons s ss =>
        rw [hc] at ih
        have : List.count sep (tok :: rest) = List.count sep rest := by
          rw [List.count_cons]
          simp [h]
        simp [extendFirst, this] at ih ⊢
        omega

theorem cutAt_span (sep : String) (t : List String) :
    (t.dropWhile (fun s => decide (s ≠ sep)) = [] ∧ cutAt sep t = [t] ∧ sep ∉ t) ∨
    (∃ r, t.dropWhile (fun s => decide (s ≠ sep)) = sep :: r ∧
      cutAt sep t = t.takeWhile (fun s => decide (s ≠ sep)) :: cutAt sep r ∧
      t = t.takeWhile (fun s => decide (s ≠ sep)) ++ sep :: r) := by
  induction t with
  | nil => left; simp [cutAt]
  | cons a rest ih =>
    by_cases h : a = sep
    · subst h
      right
      have hp : ¬ (fun s => decide (s ≠ a)) a = true := by simp
      refine ⟨rest, ?_, ?_, ?_⟩
      · rw [List.dropWhile_cons_of_neg (p := fun s => decide (s ≠ a)) hp]
      · rw [List.takeWhile_cons_of_neg (p := fun s => decide (s ≠ a)) hp, cutAt_cons_eq]
      · rw [List.takeWhile_cons_of_neg (p := fun s => decide (s ≠ a)) hp, List.nil_append]
    · have hne : ¬ sep = a := fun e => h e.symm
      have hp : (fun s => decide (s ≠ sep)) a = true := by simp [h]
      rw [List.dropWhile_cons_of_pos (p := fun s => decide (s ≠ sep)) hp,
        List.takeWhile_cons_of_pos (p := fun s => decide (s ≠ sep)) hp]
      rcases ih with ⟨h1, h2, h3⟩ | ⟨r, h1, h2, h3⟩
      · left
        refine ⟨h1, ?_, ?_⟩
        · rw [cutAt_cons_ne _ _ _ h, h2]
          rfl
        · intro hmem
          rcases List.mem_cons.mp hmem with e | e
          · exact hne e
          · exact h3 e
      · right
        refine ⟨r, h1, ?_, ?_⟩
        · rw [cutAt_cons_ne _ _ _ h, h2]
          rfl
        · rw [List.cons_append, ← h3]

theorem sequentialCommands_nil : sequentialCommands [] = [] := by
  simp [sequentialCommands, cutAt]

theorem sequentialCommands_cons (tok : String) (rest : List String) :
    sequentialCommands (tok :: rest) =
      (tok :: rest).takeWhile (fun s => decide (s ≠ "##")) ::
        sequentialCommands (((tok :: rest).dropWhile (fun s => decide (s ≠ "##"))).drop 1) := by
  rcases cutAt_span "##" (tok :: rest) with ⟨h1, h2, h3⟩ | ⟨r, h1, h2, h3⟩
  · have hlast : (tok :: rest).getLast? ≠ some "##" :=
      fun e => h3 (List.mem_of_getLast?_eq_some e)
    have htw : (tok :: rest).takeWhile (fun s => decide (s ≠ "##")) = tok :: rest := by
      have := List.takeWhile_append_dropWhile (fun s => decide (s ≠ "##")) (tok :: rest)
      rw [h1, List.append_nil] at this
      exact this
    rw [h1, htw]
    simp only [List.drop_nil, sequentialCommands_nil]
    simp only [sequentialCommands, hlast, h2]
    simp
  · rw [h1]
    simp only [List.drop_succ_cons, List.drop_zero]
    have hcond : ((tok :: rest) = [] ∨ (tok :: rest).getLast? = some "##") ↔
        (r = [] ∨ r.getLast? = some "##") := by
      have hl : (tok :: rest).getLast? = ("##" :: r).getLast? := by
        conv_lhs => rw [h3]
        rw [List.getLast?_append]
        simp [List.getLast?_cons]
      rw [hl]
      cases r with
      | nil => simp
      | cons b bs => simp
    unfold sequentialCommands
    by_cases hc : r = [] ∨ r.getLast? = some "##"
    · rw [if_pos hc, if_pos (hcond.mpr hc), h2,
        List.dropLast_cons_of_ne_nil (cutAt_ne_nil _ _)]
    · rw [if_neg hc, if_neg (fun e => hc (hcond.mp e)), h2]

theorem executeSequentialCommands_eq_runCommands (sys : Sys) (n : Nat) (t : List String) :
    executeSequentialCommands sys n t = runCommands sys n (sequentialCommands t) := by
  generalize hlen : t.length = len
  induction len using Nat.strong_induction_on generalizing t n with
  | _ len ih =>
    subst hlen
    cases t with
    | nil =>
      rw [executeSequentialCommands, sequentialCommands_nil]
      rfl
    | cons tok rest =>
      rw [executeSequentialCommands, sequentialCommands_cons]
      simp only [runCommands]
      have hlt : (((tok :: rest).dropWhile (fun s => decide (s ≠ "##"))).drop 1).length
          < (tok :: rest).length := by
        have h := (List.dropWhile_sublist (l := tok :: rest)
          (fun s => decide (s ≠ "##"))).length_le
        rw [List.length_drop]
        simp only [List.length_cons] at h ⊢
        omega
      cases ho : (executeCommand sys n
          ((tok :: rest).takeWhile (fun s => decide (s ≠ "##")))).outcome with
      | returned => simp only [ih _ hlt _ _ rfl]
      | exited s => rfl
      | execed => rfl
      | fault => rfl

theorem handedCommands_append (a b : List Event) :
    handedCommands (a ++ b) = handedCommands a ++ handedCommands b := by
  induction a with
  | nil => rfl
  | cons e rest ih => cases e <;> simp [handedCommands, ih]

theorem handedCommands_executeCommand (sys : Sys) (n : Nat) (c : List String) :
    handedCommands (executeCommand sys n c).trace = [] := by
  unfold executeCommand
  cases c.head? with
  | none => rfl
  | some first =>
    simp only
    split
    · rfl
    · split
      · unfold changeWorkingDirectory
        simp only
        split <;> rfl
      · split
        · rfl
        · cases sys.fork n with
          | failed => rfl
          | child =>
            simp only
            split <;> rfl
          | parent => rfl

theorem runCommands_handed (sys : Sys) (n : Nat) (cs : List (List String)) :
    handedCommands (runCommands sys n cs).trace <+: cs ∧
      ((runCommands sys n cs).outcome = .returned →
        handedCommands (runCommands sys n cs).trace = cs) := by
  induction cs generalizing n with
  | nil => simp [runCommands, handedCommands]
  | cons c rest ih =>
    simp only [runCommands]
    cases ho : (executeCommand sys n c).outcome with
    | returned =>
      simp only [handedCommands, handedCommands_append, handedCommands_executeCommand,
        List.nil_append]
      obtain ⟨h1, h2⟩ := ih (n + (executeCommand sys n c).forks)
      refine ⟨?_, fun h => ?_⟩
      · obtain ⟨s, hs⟩ := h1
        exact ⟨s, by rw [List.cons_append, hs]⟩
      · rw [h2 h]
    | exited s =>
      simp only [handedCommands, handedCommands_executeCommand]
      exact ⟨⟨rest, rfl⟩, fun h => by cases h⟩
    | execed =>
      simp only [handedCommands, handedCommands_executeCommand]
      exact ⟨⟨rest, rfl⟩, fun h => by cases h⟩
    | fault =>
      simp only [handedCommands, handedCommands_executeCommand]
      exact ⟨⟨rest, rfl⟩, fun h => by cases h⟩

theorem executeCommand_shell (sys : Sys) (n : Nat) (c : List String)
    (hf : sys.fork n ≠ .child) (hc : c ≠ []) (he : c.head? ≠ some "exit") :
    (executeCommand sys n c).outcome = .returned ∧
      ((executeCommand sys n c).trace = [] ∨
        (∃ p, (executeCommand sys n c).trace = [.chdir p]) ∨
        (∃ p, (executeCommand sys n c).trace = [.chdir p, .print incorrectCommand]) ∨
        (executeCommand sys n c).trace = [.forkFailed, .print incorrectCommand] ∨
        (executeCommand sys n c).trace = [.forkParent, .wait]) := by
  cases c with
  | nil => exact absurd rfl hc
  | cons first rest =>
    have hne : first ≠ "exit" := fun e => he (by rw [List.head?_cons, e])
    simp only [executeCommand, List.head?_cons]
    by_cases h0 : first.length = 0
    · simp [h0]
    · by_cases h1 : first = "cd"
      · simp only [h0, h1, if_false, if_true, changeWorkingDirectory]
        by_cases hcd : sys.chdir (("cd" :: rest).get? 1) = true
        · rw [if_pos hcd]
          exact ⟨rfl, Or.inr (Or.inl ⟨_, rfl⟩)⟩
        · rw [if_neg hcd]
          exact ⟨rfl, Or.inr (Or.inr (Or.inl ⟨_, rfl⟩))⟩
      · simp only [h0, h1, hne, if_false]
        cases hfk : sys.fork n with
        | failed => simp
        | child => exact absurd hfk hf
        | parent => simp

theorem runCommands_shell (sys : Sys) (n : Nat) (cs : List (List String))
    (hf : ∀ m, sys.fork m ≠ .child) (hc : ∀ c ∈ cs, c ≠ [] ∧ c.head? ≠ some "exit") :
    (runCommands sys n cs).outcome = .returned ∧
      (runCommands sys n cs).trace.count .wait = (runCommands sys n cs).trace.count .forkParent ∧
      failuresReported (runCommands sys n cs).trace = true := by
  induction cs generalizing n with
  | nil => simp [runCommands, failuresReported]
  | cons c rest ih =>
    obtain ⟨hc1, hc2⟩ := hc c (List.mem_cons_self _ _)
    obtain ⟨ho, hshape⟩ := executeCommand_shell sys n c (hf n) hc1 hc2
    obtain ⟨i1, i2, i3⟩ := ih (n + (executeCommand sys n c).forks)
      (fun c hm => hc c (List.mem_cons_of_mem _ hm))
    simp only [runCommands, ho]
    refine ⟨i1, ?_, ?_⟩
    · rcases hshape with h | ⟨p, h⟩ | ⟨p, h⟩ | h | h <;> rw [h] <;>
        simp [List.count_cons, i2]
    · rcases hshape with h | ⟨p, h⟩ | ⟨p, h⟩ | h | h <;> rw [h] <;>
        simp [failuresReported, i3]

theorem executeCommand_forkFailed (sys : Sys) (n : Nat) (c : List String)
    (h : Event.forkFailed ∈ (executeCommand sys n c).trace) :
    executeCommand sys n c = ⟨[.forkFailed, .print incorrectCommand], 1, .returned⟩ := by
  unfold executeCommand at h ⊢
  cases hh : c.head? with
  | none => rw [hh] at h; simp at h
  | some first =>
    rw [hh] at h
    simp only at h ⊢
    by_cases h0 : first.length = 0
    · rw [if_pos h0] at h; simp at h
    · rw [if_neg h0] at h ⊢
      by_cases h1 : first = "cd"
      · rw [if_pos h1] at h
        unfold changeWorkingDirectory at h
        simp only at h
        split at h <;> simp at h
      · rw [if_neg h1] at h ⊢
        by_cases h2 : first = "exit"
        · rw [if_pos h2] at h; simp at h
        · rw [if_neg h2] at h ⊢
          cases hf : sys.fork n with
          | failed => rfl
          | child =>
            rw [hf] at h
            simp only at h
            split at h <;> simp at h
          | parent => rw [hf] at h; simp at h

theorem parallelLoop_forkFailed (sys : Sys) (n : Nat) (rows : List (List String)) (cc : Nat)
    (rem i : Nat) (h : Event.forkFailed ∈ (parallelLoop sys n rows cc rem i).trace) :
    (parallelLoop sys n rows cc rem i).outcome = .exited 1 ∧
      ∃ k, (parallelLoop sys n rows cc rem i).trace =
        List.replicate k .forkParent ++ [.forkFailed, .print incorrectCommand] := by
  induction rem generalizing i with
  | zero =>
    simp only [parallelLoop] at h
    exact absurd (List.eq_of_mem_replicate h) (by decide)
  | succ r ih =>
    unfold parallelLoop at h ⊢
    cases hf : sys.fork (n + i) with
    | failed => exact ⟨rfl, 0, rfl⟩
    | child =>
      rw [hf] at h
      simp only at h
      cases hr : rows.get? i with
      | none => rw [hr] at h; simp at h
      | some argv =>
        rw [hr] at h
        simp only at h
        cases hh : argv.head? with
        | none => rw [hh] at h; simp at h
        | some file =>
          rw [hh] at h
          simp only at h
          split at h
          · simp at h
          · simp only [List.mem_append, List.mem_cons, List.mem_singleton, reduceCtorEq,
              or_self, List.not_mem_nil, false_or] at h
            exact absurd (List.eq_of_mem_replicate h) (by decide)
    | parent =>
      rw [hf] at h
      simp only [List.mem_cons, reduceCtorEq, false_or] at h
      obtain ⟨h1, k, hk⟩ := ih (i + 1) h
      exact ⟨h1, k + 1, by simp only [hk, List.replicate_succ, List.cons_append]⟩

theorem executeParallelCommands_forkFailed (sys : Sys) (n : Nat) (t : List String)
    (h : Event.forkFailed ∈ (executeParallelCommands sys n t).trace) :
    (executeParallelCommands sys n t).outcome = .exited 1 ∧
      ∃ k, (executeParallelCommands sys n t).trace =
        List.replicate k .forkParent ++ [.forkFailed, .print incorrectCommand] := by
  unfold executeParallelCommands at h ⊢
  cases hs : parallelSplit t [] [] 1 with
  | none => rw [hs] at h; simp at h
  | some split =>
    rw [hs] at h
    exact parallelLoop_forkFailed sys n _ _ _ _ h

theorem closeAllPipes_forkFailed (m j : Nat) : Event.forkFailed ∉ closeAllPipes m j := by
  induction m generalizing j with
  | zero => simp [closeAllPipes]
  | succ m ih => simp [closeAllPipes, ih]

theorem createPipes_forkFailed (sys : Sys) (m j : Nat) :
    Event.forkFailed ∉ (createPipes sys m j).1 := by
  induction m generalizing j with
  | zero => simp [createPipes]
  | succ m ih =>
    unfold createPipes
    split
    · simp [ih]
    · simp

theorem pipeChild_forkFailed (sys : Sys) (command : List String) (cs pi : Nat)
    (lt : Bool) : Event.forkFailed ∉ (pipeChild sys command cs pi lt).trace := by
  unfold pipeChild
  simp only
  split
  · simp only [List.mem_append, List.mem_singleton, List.mem_cons, reduceCtorEq, not_or]
    split <;> split <;> split <;> simp
  · split
    · simp only [List.mem_append, List.mem_singleton, List.mem_cons, reduceCtorEq, not_or]
      split <;> split <;> split <;> simp
    · simp only [List.mem_append, List.mem_singleton, List.mem_cons, reduceCtorEq, not_or]
      split <;> split <;> split <;> simp

theorem pipeLoop_forkFailed (sys : Sys) (n : Nat) (args : List String) (numPipes : Nat)
    (rest : List String) (i cs pi : Nat)
    (h : Event.forkFailed ∈ (pipeLoop sys n args numPipes rest i cs pi).trace) :
    (pipeLoop sys n args numPipes rest i cs pi).outcome = .exited 1 := by
  induction rest generalizing i cs pi with
  | nil =>
    simp only [pipeLoop, List.mem_append] at h
    rcases h with h | h
    · exact absurd h (closeAllPipes_forkFailed _ _)
    · exact absurd (List.eq_of_mem_replicate h) (by decide)
  | cons tok rest ih =>
    unfold pipeLoop at h ⊢
    by_cases hc : tok = "|" ∨ rest.head? = none
    · rw [if_pos hc] at h ⊢
      cases hf : sys.fork (n + pi) with
      | failed => rfl
      | child =>
        rw [hf] at h
        exact absurd h (pipeChild_forkFailed _ _ _ _ _)
      | parent =>
        rw [hf] at h
        simp only [List.mem_cons, reduceCtorEq, false_or] at h
        exact ih _ _ _ h
    · rw [if_neg hc] at h ⊢
      exact ih _ _ _ h

theorem executePipes_forkFailed (sys : Sys) (n : Nat) (args : List String)
    (h : Event.forkFailed ∈ (executePipes sys n args).trace) :
    (executePipes sys n args).outcome = .exited 1 := by
  unfold executePipes at h ⊢
  simp only at h ⊢
  split
  · rename_i hc
    rw [if_pos hc] at h
    simp only [List.mem_append] at h
    rcases h with h | h
    · exact absurd h (createPipes_forkFailed _ _ _)
    · exact pipeLoop_forkFailed _ _ _ _ _ _ _ _ h
  · rfl

theorem cutAt_not_mem (sep : String) (t : List String) :
    ∀ seg ∈ cutAt sep t, sep ∉ seg := by
  induction t with
  | nil => simp [cutAt]
  | cons tok rest ih =>
    by_cases h : tok = sep
    · subst h
      rw [cutAt_cons_eq]
      intro seg hseg
      rcases List.mem_cons.mp hseg with e | e
      · rw [e]; simp
      · exact ih seg e
    · rw [cutAt_cons_ne _ _ _ h]
      have hne := cutAt_ne_nil sep rest
      cases hc : cutAt sep rest with
      | nil => exact absurd hc hne
      | cons s ss =>
        rw [hc] at ih
        intro seg hseg
        simp only [extendFirst, List.singleton_append, List.mem_cons] at hseg
        rcases hseg with e | e
        · rw [e]
          intro hm
          rcases List.mem_cons.mp hm with e2 | e2
          · exact h e2.symm
          · exact ih s (List.mem_cons_self _ _) e2
        · exact ih seg (List.mem_cons_of_mem _ e)

theorem cutAt_intercalate (sep : String) (t : List String) :
    List.intercalate [sep] (cutAt sep t) = t := by
  induction t with
  | nil => simp [cutAt, List.intercalate]
  | cons tok rest ih =>
    have hne := cutAt_ne_nil sep rest
    by_cases h : tok = sep
    · subst h
      rw [cutAt_cons_eq]
      cases hc : cutAt tok rest with
      | nil => exact absurd hc hne
      | cons s ss =>
        rw [hc] at ih
        simp only [List.intercalate, List.intersperse, List.flatten] at ih ⊢
        simp [ih]
    · rw [cutAt_cons_ne _ _ _ h]
      cases hc : cutAt sep rest with
      | nil => exact absurd hc hne
      | cons s ss =>
        rw [hc] at ih
        cases ss with
        | nil =>
          simp only [List.intercalate, List.intersperse, List.flatten, extendFirst] at ih ⊢
          simp at ih ⊢
          exact ih
        | cons s2 ss2 =>
          simp only [List.intercalate, List.intersperse, List.flatten, extendFirst] at ih ⊢
          simp at ih ⊢
          exact ih

theorem mainStep_cons (sys : Sys) (n : Nat) (first : String) (rest : List String) (k : Nat)
    (h : first ≠ "##") (hp : parseInput (first :: rest) = some k) :
    mainStep sys n (first :: rest) =
      if k = 0 then ⟨[.print "Exiting shell...\n"], 0, .exited 0⟩
      else if k = 1 then executeParallelCommands sys n (first :: rest)
      else if k = 2 then executeSequentialCommands sys n (first :: rest)
      else if k = 3 then executeCommandRedirection sys n (first :: rest)
      else if k = 4 then executePipes sys n (first :: rest)
      else executeCommand sys n (first :: rest) := by
  simp only [mainStep, List.head?_cons, h, if_false, hp]

theorem mainStep_separator_first (sys : Sys) (n : Nat) (rest : List String) :
    mainStep sys n ("##" :: rest) = ⟨[], 0, .returned⟩ := by
  simp [mainStep]

theorem sequentialCommands_separator_first (rest : List String) :
    [] ∈ sequentialCommands ("##" :: rest) := by
  rw [sequentialCommands_cons]
  simp

theorem runCommands_external (sys : Sys) (n : Nat) (cs : List (List String))
    (hf : ∀ m, sys.fork m = .parent)
    (hc : ∀ c ∈ cs, ∃ first, c.head? = some first ∧ first.length ≠ 0 ∧ first ≠ "cd" ∧
      first ≠ "exit") :
    runCommands sys n cs = ⟨launchAll cs, cs.length, .returned⟩ := by
  induction cs generalizing n with
  | nil => rfl
  | cons c rest ih =>
    obtain ⟨first, h1, h2, h3, h4⟩ := hc c (List.mem_cons_self _ _)
    have hrun : executeCommand sys n c = ⟨[.forkParent, .wait], 1, .returned⟩ := by
      simp only [executeCommand, h1, h2, h3, h4, if_false, hf]
    have ih2 := ih (n + 1) (fun c hm => hc c (List.mem_cons_of_mem _ hm))
    simp only [runCommands, hrun, ih2, launchAll, List.length_cons, List.cons_append,
      List.nil_append, Nat.add_comm 1]

theorem containsToken_eq (t : List String) (token : String) :
    containsToken t token = if token ∈ t then 1 else 0 := by
  induction t with
  | nil => simp [containsToken]
  | cons a rest ih =>
    by_cases h : a = token
    · simp [containsToken, h]
    · have h2 : ¬ token = a := fun e => h e.symm
      simp [containsToken, h, h2, ih]

theorem executeCommandRedirection_forkFailed (sys : Sys) (n : Nat) (c : List String)
    (h : Event.forkFailed ∈ (executeCommandRedirection sys n c).trace) :
    executeCommandRedirection sys n c =
      ⟨[.forkFailed, .print incorrectCommand], 1, .returned⟩ := by
  unfold executeCommandRedirection at h ⊢
  simp only at h ⊢
  cases hh : c.get? 2 with
  | none => rw [hh] at h; simp at h
  | some file =>
    rw [hh] at h
    simp only at h ⊢
    by_cases h0 : file.length = 0
    · rw [if_pos h0] at h; simp at h
    · rw [if_neg h0] at h ⊢
      cases hf : sys.fork n with
      | failed => rfl
      | child =>
        rw [hf] at h
        simp only at h
        split at h
        · simp at h
        · split at h <;> simp at h
      | parent => rw [hf] at h; simp at h

/-- On `a ## ## b` the second command handed to `executeCommand` is empty and the call
reads through its NULL first cell: the run ends in a fault and `["b"]` is never handed. -/
theorem executeSequentialCommands_doubled_separator :
    executeSequentialCommands shellView 0 ["a", "##", "##", "b"] =
      ⟨[.executeCommand ["a"], .forkParent, .wait, .executeCommand []], 1, .fault⟩ := by
  rw [executeSequentialCommands_eq_runCommands]
  decide

theorem createPipes_ok (sys : Sys) (hp : ∀ j, sys.pipe j = true) (k j : Nat) :
    createPipes sys k j = (pipeEvents k j, true) := by
  induction k generalizing j with
  | zero => rfl
  | succ k ih => simp only [createPipes, hp, if_true, ih, pipeEvents]

theorem pipeLoop_shell (sys : Sys) (n : Nat) (args : List String) (numPipes : Nat)
    (hf : ∀ m, sys.fork m = .parent) (rest : List String) (i cs pi : Nat) :
    pipeLoop sys n args numPipes rest i cs pi =
      ⟨stageParentEvents (stageEnds rest) pi ++
        (closeAllPipes numPipes 0 ++ List.replicate (numPipes + 1) .wait),
        stageEnds rest, .returned⟩ := by
  induction rest generalizing i cs pi with
  | nil => simp [pipeLoop, stageEnds, stageParentEvents]
  | cons tok rest ih =>
    unfold pipeLoop stageEnds
    by_cases hc : tok = "|" ∨ rest.head? = none
    · rw [if_pos hc, if_pos hc]
      simp only [hf, ih, stageParentEvents, List.cons_append]
    · rw [if_neg hc, if_neg hc]
      exact ih _ _ _

theorem stageEnds_eq (t : List String) :
    stageEnds t = countPipes t + (if t = [] ∨ t.getLast? = some "|" then 0 else 1) := by
  induction t with
  | nil => simp [stageEnds, countPipes]
  | cons tok rest ih =>
    unfold stageEnds countPipes
    cases rest with
    | nil =>
      by_cases h : tok = "|"
      · simp [h, stageEnds, countPipes]
      · simp [h, stageEnds, countPipes]
    | cons b bs =>
      rw [ih]
      simp only [List.head?_cons, reduceCtorEq, or_false, List.getLast?_cons_cons, false_or]
      by_cases h : tok = "|"
      · simp only [h, if_true]
        omega
      · simp only [h, if_false]

theorem executePipes_shell (sys : Sys) (n : Nat) (args : List String)
    (hp : ∀ j, sys.pipe j = true) (hf : ∀ m, sys.fork m = .parent) :
    executePipes sys n args =
      ⟨pipeEvents (countPipes args) 0 ++
        (stageParentEvents (stageEnds args) 0 ++
          (closeAllPipes (countPipes args) 0 ++
            List.replicate (countPipes args + 1) .wait)),
        stageEnds args, .returned⟩ := by
  simp only [executePipes, createPipes_ok sys hp, if_true, pipeLoop_shell sys n args _ hf]

theorem stageCommand_last (done cur rest : List String) (tok : String) :
    stageCommand (done ++ cur ++ tok :: rest) done.length
      (((done.length + cur.length : Nat) : Int)) = cur ++ [tok] := by
  unfold stageCommand
  simp only
  have hcut : (((done.length + cur.length : Nat) : Int)) - (done.length : Int) + 1
      = ((cur.length + 1 : Nat) : Int) := by
    push_cast
    omega
  rw [hcut]
  have hneg : ¬ ((cur.length + 1 : Nat) : Int) < 0 := by omega
  rw [if_neg hneg, Int.toNat_ofNat, List.append_assoc, List.drop_left]
  rw [show cur ++ tok :: rest = (cur ++ [tok]) ++ rest by simp]
  rw [List.take_left' (by simp)]

theorem stageCommand_pipe (done cur rest : List String) (tok : String) :
    stageCommand (done ++ cur ++ tok :: rest) done.length
      (((done.length + cur.length : Nat) : Int) - 1) = cur := by
  unfold stageCommand
  simp only
  have hcut : (((done.length + cur.length : Nat) : Int)) - 1 - (done.length : Int) + 1
      = ((cur.length : Nat) : Int) := by
    push_cast
    omega
  rw [hcut]
  have hneg : ¬ ((cur.length : Nat) : Int) < 0 := by omega
  rw [if_neg hneg, Int.toNat_ofNat, List.append_assoc, List.drop_left]
  rw [List.take_left' rfl]

theorem pipeChild_commandStart (sys : Sys) (command : List String) (cs pi : Nat) (flag : Bool)
    (h : 0 < cs ↔ 0 < pi) :
    pipeChild sys command cs pi flag = pipeChild sys command pi pi flag := by
  unfold pipeChild
  by_cases hpi : 0 < pi
  · have hcs := h.mpr hpi
    simp only [gt_iff_lt, hcs, hpi, if_true]
  · have hcs : ¬ 0 < cs := fun e => hpi (h.mp e)
    simp only [gt_iff_lt, hcs, hpi, if_false]

theorem pipeLoop_child (sys : Sys) (n : Nat) (args : List String) (numPipes : Nat)
    (rest : List String) :
    ∀ (done cur : List String) (i cs pi d : Nat) (seg : List String) (flag : Bool),
      args = done ++ cur ++ rest → cs = done.length → i = cs + cur.length →
      (0 < cs ↔ 0 < pi) →
      (∀ q, q < d → sys.fork (n + (pi + q)) = .parent) →
      sys.fork (n + (pi + d)) = .child →
      (pipeStages cur rest).get? d = some (seg, flag) →
      pipeLoop sys n args numPipes rest i cs pi =
        ⟨stageParentEvents d pi ++ (pipeChild sys seg (pi + d) (pi + d) flag).trace,
          (pipeChild sys seg (pi + d) (pi + d) flag).forks + d,
          (pipeChild sys seg (pi + d) (pi + d) flag).outcome⟩ := by
  induction rest with
  | nil =>
    intro done cur i cs pi d seg flag _ _ _ _ _ _ hst
    simp [pipeStages] at hst
  | cons tok rest ih =>
    intro done cur i cs pi d seg flag hargs hcs hi hiff hpar hch hst
    unfold pipeLoop
    unfold pipeStages at hst
    by_cases hc : tok = "|" ∨ rest.head? = none
    · rw [if_pos hc]
      rw [if_pos hc] at hst
      cases d with
      | zero =>
        rw [Nat.add_zero] at hch ⊢
        simp only [List.get?_cons_zero, Option.some.injEq, Prod.mk.injEq] at hst
        obtain ⟨hseg, hflag⟩ := hst
        have hcmd : stageCommand args cs
            (if rest.head? = none then (i : Int) else (i : Int) - 1) = seg := by
          rw [hargs, hcs, hi, hcs, ← hseg]
          by_cases hl : rest.head? = none
          · rw [if_pos hl, if_pos hl]
            exact stageCommand_last done cur rest tok
          · rw [if_neg hl, if_neg hl]
            exact stageCommand_pipe done cur rest tok
        simp only [hch, hcmd, hflag, stageParentEvents, List.nil_append, Nat.add_zero]
        rw [pipeChild_commandStart sys seg cs pi flag hiff]
      | succ d =>
        have h0 := hpar 0 (Nat.succ_pos d)
        rw [Nat.add_zero] at h0
        simp only [List.get?_cons_succ] at hst
        have hrec := ih (done ++ cur ++ [tok]) [] (i + 1) (i + 1) (pi + 1) d seg flag
          (by rw [hargs]; simp) (by rw [hi, hcs]; simp [Nat.add_assoc]) (by simp)
          (by simp)
          (fun q hq => by
            have := hpar (q + 1) (Nat.succ_lt_succ hq)
            rw [show pi + 1 + q = pi + (q + 1) by omega]
            exact this)
          (by rw [show pi + 1 + d = pi + (d + 1) by omega]; exact hch) hst
        simp only [h0, hrec, stageParentEvents, List.cons_append]
        rw [show pi + 1 + d = pi + (d + 1) by omega]
        rfl
    · rw [if_neg hc]
      rw [if_neg hc] at hst
      exact ih done (cur ++ [tok]) (i + 1) cs pi d seg flag
        (by rw [hargs]; simp) hcs (by rw [hi]; simp [Nat.add_assoc]) hiff hpar hch hst

theorem pipeStages_eq_markLast (rest : List String) :
    ∀ cur : List String, rest ≠ [] → rest.getLast? ≠ some "|" →
      pipeStages cur rest = markLast (extendFirst cur (cutAt "|" rest)) := by
  induction rest with
  | nil => intro cur h; exact absurd rfl h
  | cons tok rest ih =>
    intro cur _ hlast
    unfold pipeStages
    cases rest with
    | nil =>
      have htok : tok ≠ "|" := fun e => hlast (by rw [e]; rfl)
      simp only [List.head?_nil, or_true, if_true, decide_True, pipeStages]
      rw [cutAt_cons_ne _ _ _ htok]
      rfl
    | cons b bs =>
      have hlast2 : (b :: bs).getLast? ≠ some "|" := by
        rw [List.getLast?_cons_cons] at hlast
        exact hlast
      have hne := cutAt_ne_nil "|" (b :: bs)
      simp only [List.head?_cons, reduceCtorEq, or_false, if_false, decide_False]
      by_cases h : tok = "|"
      · subst h
        rw [if_pos rfl, ih [] (by simp) hlast2, extendFirst_nil _ hne, cutAt_cons_eq]
        cases hc : cutAt "|" (b :: bs) with
        | nil => exact absurd hc hne
        | cons s ss => simp [extendFirst, markLast]
      · rw [if_neg h, ih (cur ++ [tok]) (by simp) hlast2, cutAt_cons_ne _ _ _ h,
          extendFirst_extendFirst _ _ _ hne]

theorem markLast_get? (segs : List (List String)) (p : Nat) (seg : List String)
    (h : segs.get? p = some seg) :
    (markLast segs).get? p = some (seg, decide (p + 1 = segs.length)) := by
  induction segs generalizing p with
  | nil => simp at h
  | cons s ss ih =>
    cases ss with
    | nil =>
      cases p with
      | zero =>
        simp only [List.get?_cons_zero, Option.some.injEq] at h
        simp [markLast, h]
      | succ p => simp at h
    | cons s2 ss2 =>
      cases p with
      | zero =>
        simp only [List.get?_cons_zero, Option.some.injEq] at h
        simp [markLast, h]
      | succ p =>
        simp only [List.get?_cons_succ] at h
        have := ih p h
        simp only [markLast, List.get?_cons_succ, this, List.length_cons]
        simp

theorem pipeEvents_append_trace (sys : Sys) (n : Nat) (args : List String)
    (hp : ∀ j, sys.pipe j = true) :
    executePipes sys n args =
      ⟨pipeEvents (countPipes args) 0 ++
          (pipeLoop sys n args (countPipes args) args 0 0 0).trace,
        (pipeLoop sys n args (countPipes args) args 0 0 0).forks,
        (pipeLoop sys n args (countPipes args) args 0 0 0).outcome⟩ := by
  simp only [executePipes, createPipes_ok sys hp, if_true]

theorem executePipes_child (sys : Sys) (n : Nat) (args : List String) (p : Nat)
    (seg : List String) (hp : ∀ j, sys.pipe j = true)
    (hne : args ≠ []) (hlast : args.getLast? ≠ some "|")
    (hseg : (cutAt "|" args).get? p = some seg)
    (hpar : ∀ q, q < p → sys.fork (n + q) = .parent) (hch : sys.fork (n + p) = .child) :
    executePipes sys n args =
      ⟨pipeEvents (countPipes args) 0 ++
          (stageParentEvents p 0 ++
            (pipeChild sys seg p p (decide (p = countPipes args))).trace),
        (pipeChild sys seg p p (decide (p = countPipes args))).forks + p,
        (pipeChild sys seg p p (decide (p = countPipes args))).outcome⟩ := by
  rw [pipeEvents_append_trace sys n args hp]
  cases args with
  | nil => exact absurd rfl hne
  | cons a rest =>
    have hst : (pipeStages [] (a :: rest)).get? p =
        some (seg, decide (p = countPipes (a :: rest))) := by
      rw [pipeStages_eq_markLast (a :: rest) [] (by simp) hlast,
        extendFirst_nil _ (cutAt_ne_nil _ _), markLast_get? _ p seg hseg, cutAt_length]
      have hcount : List.count "|" (a :: rest) = countPipes (a :: rest) := by
        generalize a :: rest = l
        induction l with
        | nil => rfl
        | cons x xs ih =>
          unfold countPipes
          by_cases hx : x = "|"
          · subst hx
            simp [ih]
          · have hx2 : ¬ ("|" = x) := fun e => hx e.symm
            rw [if_neg hx, List.count_cons, ih]
            simp [hx]
      rw [hcount]
      simp
    have h := pipeLoop_child sys n (a :: rest) (countPipes (a :: rest)) (a :: rest)
      [] [] 0 0 0 p seg _ (by simp) rfl rfl (by simp)
      (fun q hq => by rw [Nat.zero_add]; exact hpar q hq)
      (by rw [Nat.zero_add]; exact hch) hst
    simp only [Nat.zero_add] at h
    rw [h]

theorem pipefdsReads_append (a b : List Event) :
    pipefdsReads (a ++ b) = pipefdsReads a ++ pipefdsReads b := by
  induction a with
  | nil => rfl
  | cons e rest ih => cases e <;> simp [pipefdsReads, ih]

theorem stageParentEvents_reads (k pi q : Nat) (hq : q < k) :
    (((pi + q : Nat) : Int) * 2 + 1) ∈ pipefdsReads (stageParentEvents k pi) := by
  induction k generalizing pi q with
  | zero => exact absurd hq (Nat.not_lt_zero q)
  | succ k ih =>
    cases q with
    | zero => simp [stageParentEvents, pipefdsReads]
    | succ q =>
      have := ih (pi + 1) q (Nat.lt_of_succ_lt_succ hq)
      rw [show pi + 1 + q = pi + (q + 1) by omega] at this
      simp only [stageParentEvents, pipefdsReads, List.mem_cons]
      exact Or.inr this

/-- Every pipeline that does not end in `"|"`: after the fork of the last stage the shell
process reads cell `2 * numPipes + 1` of `pipefds`, an array of `2 * numPipes` cells. -/
theorem executePipes_shell_reads_past_end (sys : Sys) (n : Nat) (args : List String)
    (hp : ∀ j, sys.pipe j = true) (hf : ∀ m, sys.fork m = .parent)
    (hne : args ≠ []) (hlast : args.getLast? ≠ some "|") :
    (((countPipes args : Nat) : Int) * 2 + 1) ∈
      pipefdsReads (executePipes sys n args).trace := by
  rw [executePipes_shell sys n args hp hf, pipefdsReads_append, pipefdsReads_append]
  have hends : stageEnds args = countPipes args + 1 := by
    rw [stageEnds_eq]
    simp [hne, hlast]
  have := stageParentEvents_reads (stageEnds args) 0 (countPipes args) (by omega)
  rw [Nat.zero_add] at this
  exact List.mem_append_right _ (List.mem_append_left _ this)

/-- The number of children that `executePipes` spawns, seen from the shell process:
one per `"|"`, and one more exactly when the tokens do not end in `"|"`. -/
theorem executePipes_shell_forks (sys : Sys) (n : Nat) (args : List String)
    (hp : ∀ j, sys.pipe j = true) (hf : ∀ m, sys.fork m = .parent) :
    (executePipes sys n args).forks =
      countPipes args + (if args = [] ∨ args.getLast? = some "|" then 0 else 1) := by
  rw [executePipes_shell sys n args hp hf, stageEnds_eq]


/-! ## The claims -/

/-- C1: for every non-empty token sequence `t`, `parseInput` returns exactly one tag, chosen
by the precedence Exit > Parallel > Sequential > Redirected > Piped > Single: 0 when `t[0]`
is `"exit"`, otherwise 1 when `"&&"` occurs in `t`, otherwise 2 when `"##"` occurs,
otherwise 3 when `">"` occurs, otherwise 4 when `"|"` occurs, otherwise 5. -/
theorem parseInput_precedence (t : List String) (h : t ≠ []) :
    parseInput t = some
      (if t.head h = "exit" then 0
       else if "&&" ∈ t then 1
       else if "##" ∈ t then 2
       else if ">" ∈ t then 3
       else if "|" ∈ t then 4
       else 5) := by
  cases t with
  | nil => exact absurd rfl h
  | cons first rest =>
    simp only [parseInput, List.head?_cons, List.head_cons, containsToken_eq]
    by_cases h0 : first = "exit"
    · simp [h0]
    · simp only [h0, if_false]
      by_cases h1 : "&&" ∈ first :: rest
      · simp [h1]
      · by_cases h2 : "##" ∈ first :: rest
        · simp [h1, h2]
        · by_cases h3 : ">" ∈ first :: rest
          · simp [h1, h2, h3]
          · by_cases h4 : "|" ∈ first :: rest
            · simp [h1, h2, h3, h4]
            · simp [h1, h2, h3, h4]

/-- C1 at the line `ls | wc > out ## pwd`: the tag is 2 (Sequential). -/
theorem parseInput_precedence_witness :
    parseInput ["ls", "|", "wc", ">", "out", "##", "pwd"] = some 2 := by
  have h := parseInput_precedence ["ls", "|", "wc", ">", "out", "##", "pwd"] (by decide)
  simpa using h

/-- C2: on the tokens of `echo hi > out.txt` the child of `executeCommandRedirection` opens
the file named `">"` (the third cell of the array) as its standard output and executes the
argument list `["echo"]`: the argument `"hi"` is dropped and `out.txt` is never opened. -/
theorem executeCommandRedirection_drops_arguments :
    executeCommandRedirection (childView 0 true) 0 ["echo", "hi", ">", "out.txt"] =
      ⟨[.forkChild, .signalDefault .sigint, .signalDefault .sigtstp, .closeStdout,
        .openAppend ">", .execvp (some "echo") ["echo"]], 1, .execed⟩ := by
  decide

/-- C4 (amended): a line whose first token is `"##"` is skipped as a whole: no fork, no
message, no fault, and no command of the line is executed.  On a line of topology
Sequential on which no command is empty and none is `exit`, the shell process hands every
command of the line to `executeCommand`, in order, and returns to the prompt loop; when
the commands are all external programs and every fork succeeds, each of them in turn is
forked and waited for. -/
theorem mainStep_leading_separator_skips_line (sys : Sys) (n : Nat) (args : List String) :
    (args.head? = some "##" → mainStep sys n args = ⟨[], 0, .returned⟩) ∧
    (parseInput args = some 2 → (∀ m, sys.fork m ≠ .child) →
      (∀ c ∈ sequentialCommands args, c ≠ [] ∧ c.head? ≠ some "exit") →
      (mainStep sys n args).outcome = .returned ∧
        handedCommands (mainStep sys n args).trace = sequentialCommands args) ∧
    (parseInput args = some 2 → (∀ m, sys.fork m = .parent) →
      (∀ c ∈ sequentialCommands args, ∃ first, c.head? = some first ∧ first.length ≠ 0 ∧
        first ≠ "cd" ∧ first ≠ "exit") →
      mainStep sys n args =
        ⟨launchAll (sequentialCommands args), (sequentialCommands args).length,
          .returned⟩) := by
  refine ⟨fun h => ?_, fun hp hf hc => ?_, fun hp hf hc => ?_⟩
  · cases args with
    | nil => simp at h
    | cons first rest =>
      simp only [List.head?_cons, Option.some.injEq] at h
      rw [h]
      exact mainStep_separator_first sys n rest
  · cases args with
    | nil => simp [parseInput] at hp
    | cons first rest =>
      have hfirst : first ≠ "##" := by
        intro e
        subst e
        exact absurd rfl (hc [] (sequentialCommands_separator_first rest)).1
      rw [mainStep_cons sys n first rest 2 hfirst hp]
      simp only [OfNat.ofNat_ne_zero, OfNat.ofNat_ne_one, if_false, if_true]
      rw [executeSequentialCommands_eq_runCommands]
      have hret := (runCommands_shell sys n _ hf hc).1
      exact ⟨hret, (runCommands_handed sys n _).2 hret⟩
  · cases args with
    | nil => simp [parseInput] at hp
    | cons first rest =>
      have hfirst : first ≠ "##" := by
        intro e
        subst e
        obtain ⟨f, hf1, _⟩ := hc [] (sequentialCommands_separator_first rest)
        simp at hf1
      rw [mainStep_cons sys n first rest 2 hfirst hp]
      simp only [OfNat.ofNat_ne_zero, OfNat.ofNat_ne_one, if_false, if_true]
      rw [executeSequentialCommands_eq_runCommands]
      exact runCommands_external sys n _ hf hc

/-- C4 (amended) at `## a ## b`, which is skipped, and at `a ## cd /tmp` and `a ## b`, on
which every command is handed on, `a ## b` being forked and waited for twice. -/
theorem mainStep_leading_separator_skips_line_witness :
    mainStep shellView 0 ["##", "a", "##", "b"] = ⟨[], 0, .returned⟩ ∧
    handedCommands (mainStep shellView 0 ["a", "##", "cd", "/tmp"]).trace =
      [["a"], ["cd", "/tmp"]] ∧
    mainStep shellView 0 ["a", "##", "b"] =
      ⟨[.executeCommand ["a"], .forkParent, .wait, .executeCommand ["b"], .forkParent, .wait],
        2, .returned⟩ := by
  refine ⟨(mainStep_leading_separator_skips_line shellView 0 ["##", "a", "##", "b"]).1 rfl,
    ?_, ?_⟩
  · have h := (mainStep_leading_separator_skips_line shellView 0
      ["a", "##", "cd", "/tmp"]).2.1 (by decide) (fun m => by simp [shellView]) (by decide)
    rw [h.2]
    decide
  · have h := (mainStep_leading_separator_skips_line shellView 0 ["a", "##", "b"]).2.2
      (by decide) (fun m => rfl) (by decide)
    rw [h]
    decide

/-- C4 as stated fails on `## a`: neither seen from the shell process nor seen from a child
is there any event, so the command `["a"]` is not run. -/
theorem mainStep_leading_separator_runs_nothing :
    mainStep shellView 0 ["##", "a"] = ⟨[], 0, .returned⟩ ∧
    mainStep (childView 0 true) 0 ["##", "a"] = ⟨[], 0, .returned⟩ := by
  decide

/-- C6: on the tokens of `a |` (one `"|"`, so two segments `["a"]` and `[]`) `executePipes`
creates one pipe but spawns a single child, which calls `execvp` with `["a", "|"]`, a
vector that contains the `"|"` token; the parent then waits twice. -/
theorem executePipes_trailing_pipe :
    cutAt "|" ["a", "|"] = [["a"], []] ∧
    executePipes shellView 0 ["a", "|"] =
      ⟨[.pipe 0, .forkParent, .closePipefd 1, .closePipefd 0, .closePipefd 1, .wait, .wait],
        1, .returned⟩ ∧
    executePipes (childView 0 true) 0 ["a", "|"] =
      ⟨[.pipe 0, .forkChild, .closePipefd 0, .execvp (some "a") ["a", "|"]], 1, .execed⟩ := by
  decide

/-- C7: in the pipeline `a | b | c` the child of stage 0, at its `execvp`, has its standard
output bound to the write end of pipe 0 (cell 1 of `pipefds`), and still holds open the
original write end of pipe 0 (cell 1) and both ends of pipe 1 (cells 2 and 3). -/
theorem executePipes_child_keeps_descriptors :
    executePipes (childView 0 true) 0 ["a", "|", "b", "|", "c"] =
      ⟨[.pipe 0, .pipe 1, .forkChild, .closePipefd 0, .dup2Pipefd 1 .stdout,
        .execvp (some "a") ["a"]], 1, .execed⟩ ∧
    fdTableAfter ⟨none, none, []⟩ 0
        (executePipes (childView 0 true) 0 ["a", "|", "b", "|", "c"]).trace =
      some ⟨none, some 1, [1, 2, 3]⟩ := by
  decide

/-- C8: when `execvp` fails in the child, the child of `executeCommand` reports the error
and exits with status 0; the child of `executeParallelCommands` reports nothing, performs
the waits and returns into the prompt loop; the child of `executeCommandRedirection`
reports nothing and returns into the prompt loop; only the child of `executePipes` reports
and exits with status 1. -/
theorem exec_failure_in_child :
    mainStep (childView 0 false) 0 ["nosuch"] =
      ⟨[.forkChild, .signalDefault .sigint, .signalDefault .sigtstp,
        .execvp (some "nosuch") ["nosuch"], .print incorrectCommand], 1, .exited 0⟩ ∧
    mainStep (childView 0 false) 0 ["nosuch", "&&", "ls"] =
      ⟨[.forkChild, .signalDefault .sigint, .signalDefault .sigtstp,
        .execvp (some "nosuch") ["nosuch"], .waitpid, .waitpid], 1, .returned⟩ ∧
    mainStep (childView 0 false) 0 ["nosuch", ">", "out.txt"] =
      ⟨[.forkChild, .signalDefault .sigint, .signalDefault .sigtstp, .closeStdout,
        .openAppend "out.txt", .execvp (some "nosuch") ["nosuch"]], 1, .returned⟩ ∧
    mainStep (childView 0 false) 0 ["nosuch", "|", "wc"] =
      ⟨[.pipe 0, .forkChild, .closePipefd 0, .dup2Pipefd 1 .stdout,
        .execvp (some "nosuch") ["nosuch"], .perror "execvp"], 1, .exited 1⟩ := by
  decide

/-- C9 (amended): when a fork fails on a line of topology Single, the shell prints
`Shell: Incorrect command`, does not wait and returns to the prompt loop; on a line of
topology Sequential the shell process reports every failed fork, waits exactly once per
child it spawned, hands every command of the line to `executeCommand` and returns to the
prompt loop; on a line of topology Parallel, as on a line of topology Piped, a failed fork
is fatal: the shell exits with status 1 (in Parallel right after printing the message,
without any wait); on a line of topology Redirected the shell prints the message, does not
wait and returns to the prompt loop. -/
theorem fork_failure_by_topology (sys : Sys) (n : Nat) (args : List String) :
    (parseInput args = some 5 → Event.forkFailed ∈ (mainStep sys n args).trace →
      mainStep sys n args = ⟨[.forkFailed, .print incorrectCommand], 1, .returned⟩) ∧
    (parseInput args = some 2 → (∀ m, sys.fork m ≠ .child) →
      (∀ c ∈ sequentialCommands args, c ≠ [] ∧ c.head? ≠ some "exit") →
      (mainStep sys n args).outcome = .returned ∧
      handedCommands (mainStep sys n args).trace = sequentialCommands args ∧
      (mainStep sys n args).trace.count .wait = (mainStep sys n args).trace.count .forkParent ∧
      failuresReported (mainStep sys n args).trace = true) ∧
    (parseInput args = some 1 → Event.forkFailed ∈ (mainStep sys n args).trace →
      (mainStep sys n args).outcome = .exited 1 ∧
      ∃ k, (mainStep sys n args).trace =
        List.replicate k .forkParent ++ [.forkFailed, .print incorrectCommand]) ∧
    (parseInput args = some 4 → Event.forkFailed ∈ (mainStep sys n args).trace →
      (mainStep sys n args).outcome = .exited 1) ∧
    (parseInput args = some 3 → Event.forkFailed ∈ (mainStep sys n args).trace →
      mainStep sys n args = ⟨[.forkFailed, .print incorrectCommand], 1, .returned⟩) := by
  cases args with
  | nil => simp [parseInput]
  | cons first rest =>
    by_cases hfirst : first = "##"
    · subst hfirst
      rw [mainStep_separator_first]
      refine ⟨fun _ h => by simp at h, fun _ _ hc => ?_, fun _ h => by simp at h,
        fun _ h => by simp at h, fun _ h => by simp at h⟩
      exact absurd rfl (hc [] (sequentialCommands_separator_first rest)).1
    · refine ⟨fun hp h => ?_, fun hp hf hc => ?_, fun hp h => ?_, fun hp h => ?_,
        fun hp h => ?_⟩
      · rw [mainStep_cons sys n first rest 5 hfirst hp] at h ⊢
        simp only [OfNat.ofNat_ne_zero, OfNat.ofNat_ne_one, Nat.reduceEqDiff, if_false] at h ⊢
        exact executeCommand_forkFailed sys n _ h
      · rw [mainStep_cons sys n first rest 2 hfirst hp]
        simp only [OfNat.ofNat_ne_zero, OfNat.ofNat_ne_one, if_false, if_true]
        rw [executeSequentialCommands_eq_runCommands]
        obtain ⟨h1, h2, h3⟩ := runCommands_shell sys n _ hf hc
        exact ⟨h1, (runCommands_handed sys n _).2 h1, h2, h3⟩
      · rw [mainStep_cons sys n first rest 1 hfirst hp] at h ⊢
        simp only [one_ne_zero, if_false, if_true] at h ⊢
        exact executeParallelCommands_forkFailed sys n _ h
      · rw [mainStep_cons sys n first rest 4 hfirst hp] at h ⊢
        simp only [OfNat.ofNat_ne_zero, OfNat.ofNat_ne_one, Nat.reduceEqDiff, if_false,
          if_true] at h ⊢
        exact executePipes_forkFailed sys n _ h
      · rw [mainStep_cons sys n first rest 3 hfirst hp] at h ⊢
        simp only [OfNat.ofNat_ne_zero, OfNat.ofNat_ne_one, Nat.reduceEqDiff, if_false,
          if_true] at h ⊢
        exact executeCommandRedirection_forkFailed sys n _ h

/-- C9 (amended) with the first fork failing: `ls` and `a ## b` return to the prompt loop,
`a && b` and `a | b` end the shell with status 1. -/
theorem fork_failure_by_topology_witness :
    mainStep (forkFailsAt 0) 0 ["ls"] =
      ⟨[.forkFailed, .print incorrectCommand], 1, .returned⟩ ∧
    (mainStep (forkFailsAt 0) 0 ["a", "##", "b"]).outcome = .returned ∧
    (mainStep (forkFailsAt 0) 0 ["a", "&&", "b"]).outcome = .exited 1 ∧
    (mainStep (forkFailsAt 0) 0 ["a", "|", "b"]).outcome = .exited 1 := by
  refine ⟨(fork_failure_by_topology (forkFailsAt 0) 0 ["ls"]).1 (by decide) (by decide),
    ((fork_failure_by_topology (forkFailsAt 0) 0 ["a", "##", "b"]).2.1 (by decide)
      (fun m => by unfold forkFailsAt; simp only; split <;> simp) (by decide)).1,
    ((fork_failure_by_topology (forkFailsAt 0) 0 ["a", "&&", "b"]).2.2.1 (by decide)
      (by decide)).1,
    (fork_failure_by_topology (forkFailsAt 0) 0 ["a", "|", "b"]).2.2.2.1 (by decide)
      (by decide)⟩

/-- C9 as stated fails on the Parallel line `a && b` when the first fork fails: the shell
prints the message and terminates with status 1 instead of returning to the prompt loop. -/
theorem executeParallelCommands_fork_failure_fatal :
    parseInput ["a", "&&", "b"] = some 1 ∧
    mainStep (forkFailsAt 0) 0 ["a", "&&", "b"] =
      ⟨[.forkFailed, .print incorrectCommand], 1, .exited 1⟩ := by
  decide

/-- C10: on the tokens of `a | b` the array `pipefds` has 2 cells, and `executePipes` reads
cell 3 in the parent (closing the "current write end" after the last stage) and cell 2 in
the child of the last stage (closing the "current read end"). -/
theorem executePipes_reads_past_pipefds :
    2 * countPipes ["a", "|", "b"] = 2 ∧
    pipefdsReads (executePipes shellView 0 ["a", "|", "b"]).trace = [1, 3, 0, 1] ∧
    pipefdsReads (executePipes (childView 1 true) 0 ["a", "|", "b"]).trace = [1, 1, 0, 2] := by
  decide

end CustomShell
